import Mathlib

/-!
Shallow embedding of the JSON → Lark Base importer
(`src/lib/lark.ts`, `src/components/JsonUploader.tsx`,
`src/app/api/import/route.ts`) and proofs about its
field-name normalizer, field reconciliation matcher, JSON recovery
parser, record value transformer, batch import engine and schema
synchronizer.  Strings are modelled as lists of Unicode scalar values
(`Str`), records as ordered key/value lists, and the remote provider's
responses as explicit outcome values.
-/

namespace LarkImporter

/-- Strings of the embedded programs: a JavaScript string as its list of
Unicode scalar values (all inputs in this development are BMP scalars,
where JS UTF-16 code units and scalar values coincide). -/
abbrev Str := List Char

/-- Membership of a character in the ECMAScript `\s` character class
(WhiteSpace ∪ LineTerminator), the class used by `/\s/`, `String.trim`,
and the edge-trimming regexes: TAB, LF, VT, FF, CR, SP, NBSP, OGHAM
SPACE MARK, U+2000-200A, LS, PS, NNBSP, MMSP, IDEOGRAPHIC SPACE, and
ZWNBSP/BOM (U+FEFF). -/
def isJsWs (c : Char) : Bool :=
  c = '\t' || c = '\n' || c = '\u000B' || c = '\u000C' || c = '\r' ||
  c = ' ' || c = '\u00A0' || c = '\u1680' ||
  ('\u2000' ≤ c && c ≤ '\u200A') ||
  c = '\u2028' || c = '\u2029' || c = '\u202F' || c = '\u205F' ||
  c = '\u3000' || c = '\uFEFF'

/-- JavaScript `String.prototype.trim`: drop the maximal leading and
trailing runs of `\s` characters. -/
def trimJs (s : Str) : Str :=
  ((s.dropWhile isJsWs).reverse.dropWhile isJsWs).reverse

/-- Canonical combining class of a character; Unicode data restricted to
the characters appearing in this development (only U+0301 COMBINING
ACUTE ACCENT has a nonzero class here, its real value 230; every other
character used has class 0). -/
def ccc (c : Char) : Nat :=
  if c = '\u0301' then 230 else 0

/-- NFKC decomposition mapping, Unicode data restricted to the
characters appearing in this development: U+00E9 (e with acute) →
e + U+0301 (canonical); U+FF08/U+FF09/U+FF1A fullwidth parentheses and
colon → their ASCII forms and U+3000 ideographic space → space
(compatibility); every other character used really is NFKC-inert. -/
def decompChar (c : Char) : List Char :=
  if c = '\u00E9' then ['e', '\u0301']
  else if c = '\uFF08' then ['(']
  else if c = '\uFF09' then [')']
  else if c = '\uFF1A' then [':']
  else if c = '\u3000' then [' ']
  else [c]

/-- Primary composite of a pair of characters (Unicode data restricted
as for `decompChar`): only (e, U+0301) → U+00E9 composes here. -/
def composePair (a b : Char) : Option Char :=
  if a = 'e' && b = '\u0301' then some '\u00E9' else none

/-- One step of the Unicode Canonical Ordering Algorithm, over the
reversed already-ordered prefix: a character with nonzero combining
class moves left past previously placed characters of strictly greater
combining class (a stable insertion, the algorithm of UAX #15
section 3.11). -/
def ordInsert (c : Char) : Str → Str
  | [] => [c]
  | d :: ds =>
    if ccc c ≠ 0 && ccc d > ccc c then d :: ordInsert c ds
    else c :: d :: ds

/-- Canonical ordering of a decomposed sequence: insert each character
in turn (the accumulator is reversed). -/
def canonicalOrder (s : Str) : Str :=
  (s.foldl (fun acc c => ordInsert c acc) []).reverse

/-- Canonical composition of one combining-character cluster:
`starter` is the last starter, `marks` the (reversed) characters emitted
after it; each following character composes with the starter when not
blocked by an intervening mark of greater-or-equal combining class. -/
def composeRun (starter : Char) (marks : List Char) : List Char → Str
  | [] => starter :: marks.reverse
  | c :: rest =>
    if ccc c = 0 then
      if marks.isEmpty then
        match composePair starter c with
        | some d => composeRun d [] rest
        | none => (starter :: marks.reverse) ++ composeRun c [] rest
      else (starter :: marks.reverse) ++ composeRun c [] rest
    else
      if marks.any (fun m => ccc c ≤ ccc m) then
        composeRun starter (c :: marks) rest
      else
        match composePair starter c with
        | some d => composeRun d marks rest
        | none => composeRun starter (c :: marks) rest

/-- Canonical composition of a canonically ordered sequence. -/
def nfkcCompose : Str → Str
  | [] => []
  | c :: rest =>
    if ccc c = 0 then composeRun c [] rest else c :: nfkcCompose rest

/-- Model of `String.prototype.normalize` with argument `'NFKC'`: the
standard decompose / canonically-order / compose algorithm, over the
restricted (but real) Unicode data of `decompChar`, `ccc` and
`composePair`.  Every character used in this development and not in
those tables is NFKC-inert in real Unicode as well. -/
def nfkc (s : Str) : Str :=
  nfkcCompose (canonicalOrder ((s.map decompChar).flatten))

/-- Membership in the invisible-character class removed by
`normalizeFieldName` - the regex class listing U+200B zero-width space,
U+200C/U+200D zero-width (non-)joiner, U+200E/U+200F direction marks,
U+FEFF BOM and U+00AD soft hyphen. -/
def isInvisible (c : Char) : Bool :=
  c = '\u200B' || c = '\u200C' || c = '\u200D' || c = '\u200E' ||
  c = '\u200F' || c = '\uFEFF' || c = '\u00AD'

/-- The four single-character fullwidth replacements of
`normalizeFieldName` (U+FF08 → `(`, U+FF09 → `)`, U+FF1A → `:`,
U+3000 → space), each a global single-character regex replace, i.e. a
character map. -/
def replaceFullwidth (c : Char) : Char :=
  if c = '\uFF08' then '('
  else if c = '\uFF09' then ')'
  else if c = '\uFF1A' then ':'
  else if c = '\u3000' then ' '
  else c

mutual

/-- JavaScript `replace(/\s+/g, ' ')`: each maximal run of `\s`
characters becomes a single space (`collapseWsSkip` consumes the rest of
a run whose single replacement space has already been emitted). -/
def collapseWs : Str → Str
  | [] => []
  | c :: rest =>
    if isJsWs c then ' ' :: collapseWsSkip rest
    else c :: collapseWs rest

/-- Consume the remainder of a whitespace run, then resume
`collapseWs`. -/
def collapseWsSkip : Str → Str
  | [] => []
  | c :: rest =>
    if isJsWs c then collapseWsSkip rest
    else c :: collapseWs rest

end

/-- `normalizeFieldName` from `src/lib/lark.ts`: NFKC normalization,
removal of zero-width/BOM/soft-hyphen characters, fullwidth
parenthesis/colon/space to halfwidth, whitespace-run collapse, trim. -/
def normalizeFieldName (name : Str) : Str :=
  trimJs (collapseWs (((nfkc name).filter (fun c => !isInvisible c)).map
    replaceFullwidth))

/-- Membership in the zero-width class removed globally by
`sanitizeJsonText`'s final replace: U+200B through U+200F. -/
def isZeroWidth (c : Char) : Bool :=
  c = '\u200B' || c = '\u200C' || c = '\u200D' || c = '\u200E' ||
  c = '\u200F'

/-- Membership in the edge-trimming class of `sanitizeJsonText`:
ECMAScript `\s` together with the zero-width characters U+200B-U+200F
(the listed BOM and NBSP are already in `\s`). -/
def isEdgeJunk (c : Char) : Bool :=
  isJsWs c || isZeroWidth c

/-- `replace(/^\uFEFF/, '')` of `sanitizeJsonText`: remove one leading
byte-order mark. -/
def stripBom : Str → Str
  | c :: rest => if c = '\uFEFF' then rest else c :: rest
  | [] => []

def sanitizeJsonText (text : Str) : Str :=
  let t1 := stripBom text
  let t2 := t1.dropWhile isEdgeJunk
  let t3 := (t2.reverse.dropWhile isEdgeJunk).reverse
  t3.filter (fun c => !isZeroWidth c)

/-- JavaScript values flowing through the importer: JSON values plus the
distinction the transformer cares about.  `vNull` stands for both
`null` and `undefined` (the code treats them identically, and JSON never
produces `undefined`).  Number payloads are abstracted to integers: no
claim in this development depends on floating-point semantics, only on
whether a value is a number. -/
inductive JsValue where
  | vNull : JsValue
  | vBool : Bool → JsValue
  | vNum : Int → JsValue
  | vStr : Str → JsValue
  | vArr : List JsValue → JsValue
  | vObj : List (Str × JsValue) → JsValue

/-- Decimal digits of a natural number, most significant first. -/
def natToStr (n : Nat) : Str :=
  if h : n < 10 then [Char.ofNat (48 + n)]
  else natToStr (n / 10) ++ [Char.ofNat (48 + n % 10)]
decreasing_by exact Nat.div_lt_self (by omega) (by omega)

/-- Decimal representation of an integer (model of JavaScript
number-to-string conversion for the integer payloads of `vNum`). -/
def intToStr (n : Int) : Str :=
  if n < 0 then '-' :: natToStr n.natAbs else natToStr n.natAbs

/-- JSON string-character escaping used by `JSON.stringify`: quote and
backslash escaped, control characters as `\n`/`\t`/`\r` or `\u00XX`. -/
def escapeJsonChar (c : Char) : Str :=
  if c = '"' then ['\\', '"']
  else if c = '\\' then ['\\', '\\']
  else if c = '\n' then ['\\', 'n']
  else if c = '\t' then ['\\', 't']
  else if c = '\r' then ['\\', 'r']
  else if c.toNat < 32 then
    '\\' :: 'u' :: '0' :: '0' ::
      [Char.ofNat (if c.toNat / 16 < 10 then 48 + c.toNat / 16 else 87 + c.toNat / 16),
       Char.ofNat (if c.toNat % 16 < 10 then 48 + c.toNat % 16 else 87 + c.toNat % 16)]
  else [c]

mutual

/-- Model of `JSON.stringify` (no spacing argument). -/
def jsonStringify : JsValue → Str
  | .vNull => ['n', 'u', 'l', 'l']
  | .vBool true => ['t', 'r', 'u', 'e']
  | .vBool false => ['f', 'a', 'l', 's', 'e']
  | .vNum n => intToStr n
  | .vStr s => '"' :: (s.map escapeJsonChar).flatten ++ ['"']
  | .vArr xs => '[' :: stringifyArrItems xs ++ [']']
  | .vObj kvs => '{' :: stringifyObjItems kvs ++ ['}']

/-- Comma-separated serialization of array elements. -/
def stringifyArrItems : List JsValue → Str
  | [] => []
  | [x] => jsonStringify x
  | x :: y :: rest => jsonStringify x ++ ',' :: stringifyArrItems (y :: rest)

/-- Comma-separated serialization of object entries. -/
def stringifyObjItems : List (Str × JsValue) → Str
  | [] => []
  | [(k, v)] => jsonStringify (.vStr k) ++ ':' :: jsonStringify v
  | (k, v) :: e :: rest =>
    jsonStringify (.vStr k) ++ ':' :: jsonStringify v ++
      ',' :: stringifyObjItems (e :: rest)

end

/-- JSON-grammar whitespace (RFC 8259: space, tab, LF, CR), the set
`JSON.parse` skips between tokens. -/
def isJsonWs (c : Char) : Bool :=
  c = ' ' || c = '\t' || c = '\n' || c = '\r'

/-- Value of a hexadecimal digit, if the character is one. -/
def hexDigitVal (c : Char) : Option Nat :=
  if '0' ≤ c && c ≤ '9' then some (c.toNat - 48)
  else if 'a' ≤ c && c ≤ 'f' then some (c.toNat - 87)
  else if 'A' ≤ c && c ≤ 'F' then some (c.toNat - 55)
  else none

/-- Parse the body of a JSON string literal after its opening quote:
returns the decoded characters and the input after the closing quote.
Raw control characters below U+0020 are rejected, as `JSON.parse`
rejects them. -/
def parseStrBody : Str → Option (Str × Str)
  | [] => none
  | '"' :: rest => some ([], rest)
  | '\\' :: e :: rest =>
    if e = '"' then (parseStrBody rest).map (fun p => ('"' :: p.1, p.2))
    else if e = '\\' then (parseStrBody rest).map (fun p => ('\\' :: p.1, p.2))
    else if e = '/' then (parseStrBody rest).map (fun p => ('/' :: p.1, p.2))
    else if e = 'b' then (parseStrBody rest).map (fun p => ('\u0008' :: p.1, p.2))
    else if e = 'f' then (parseStrBody rest).map (fun p => ('\u000C' :: p.1, p.2))
    else if e = 'n' then (parseStrBody rest).map (fun p => ('\n' :: p.1, p.2))
    else if e = 'r' then (parseStrBody rest).map (fun p => ('\r' :: p.1, p.2))
    else if e = 't' then (parseStrBody rest).map (fun p => ('\t' :: p.1, p.2))
    else if e = 'u' then
      match rest with
      | h1 :: h2 :: h3 :: h4 :: rest' =>
        match hexDigitVal h1, hexDigitVal h2, hexDigitVal h3, hexDigitVal h4 with
        | some a, some b, some c, some d =>
          (parseStrBody rest').map
            (fun p => (Char.ofNat (a * 4096 + b * 256 + c * 16 + d) :: p.1, p.2))
        | _, _, _, _ => none
      | _ => none
    else none
  | c :: rest =>
    if c.toNat < 32 then none
    else (parseStrBody rest).map (fun p => (c :: p.1, p.2))

/-- Parse the digits of a natural number (at least one). -/
def parseDigits (s : Str) : Option (Nat × Str) :=
  let ds := s.takeWhile (fun c => '0' ≤ c && c ≤ '9')
  if ds.isEmpty then none
  else some (ds.foldl (fun acc c => acc * 10 + (c.toNat - 48)) 0,
             s.dropWhile (fun c => '0' ≤ c && c ≤ '9'))

/-- Parse a JSON number token (integer part kept, fraction and exponent
recognized and discarded - number payloads are abstracted, see
`JsValue`). -/
def parseNumber (s : Str) : Option (Int × Str) := do
  let (neg, s1) := match s with
    | '-' :: rest => (true, rest)
    | _ => (false, s)
  let (n, s2) ← parseDigits s1
  let s3 := match s2 with
    | '.' :: rest =>
      match parseDigits rest with
      | some (_, r) => r
      | none => '.' :: rest
    | _ => s2
  let s4 := match s3 with
    | 'e' :: rest => skipExp rest
    | 'E' :: rest => skipExp rest
    | _ => s3
  pure (if neg then -(n : Int) else (n : Int), s4)
where
  /-- Consume an exponent's sign and digits if present. -/
  skipExp (r : Str) : Str :=
    let r1 := match r with
      | '+' :: t => t
      | '-' :: t => t
      | _ => r
    match parseDigits r1 with
    | some (_, t) => t
    | none => r

mutual

/-- Fuel-indexed recursive-descent JSON value parser (model of the
grammar `JSON.parse` accepts); returns the value and the unconsumed
input.  Fuel decreases on every recursive call; `jsonParse` supplies
enough for any input. -/
def parseVal : Nat → Str → Option (JsValue × Str)
  | 0, _ => none
  | fuel + 1, s =>
    match s.dropWhile isJsonWs with
    | '{' :: rest =>
      (parseObjBody fuel (rest.dropWhile isJsonWs)).map
        (fun p => (.vObj p.1, p.2))
    | '[' :: rest =>
      (parseArrBody fuel (rest.dropWhile isJsonWs)).map
        (fun p => (.vArr p.1, p.2))
    | '"' :: rest => (parseStrBody rest).map (fun p => (.vStr p.1, p.2))
    | 't' :: 'r' :: 'u' :: 'e' :: rest => some (.vBool true, rest)
    | 'f' :: 'a' :: 'l' :: 's' :: 'e' :: rest => some (.vBool false, rest)
    | 'n' :: 'u' :: 'l' :: 'l' :: rest => some (.vNull, rest)
    | t => (parseNumber t).map (fun p => (.vNum p.1, p.2))

/-- Object body after `{` (leading whitespace consumed): entries up to
and including the closing `}`. -/
def parseObjBody : Nat → Str → Option (List (Str × JsValue) × Str)
  | 0, _ => none
  | _ + 1, '}' :: rest => some ([], rest)
  | fuel + 1, s => parseObjEntries fuel s

/-- One or more `"key": value` object entries, separated by commas,
ending at `}`. -/
def parseObjEntries : Nat → Str → Option (List (Str × JsValue) × Str)
  | 0, _ => none
  | fuel + 1, s =>
    match s with
    | '"' :: rest => do
      let (k, r1) ← parseStrBody rest
      match r1.dropWhile isJsonWs with
      | ':' :: r2 => do
        let (v, r3) ← parseVal fuel r2
        match r3.dropWhile isJsonWs with
        | ',' :: r4 =>
          (parseObjEntries fuel (r4.dropWhile isJsonWs)).map
            (fun p => ((k, v) :: p.1, p.2))
        | '}' :: r4 => some ([(k, v)], r4)
        | _ => none
      | _ => none
    | _ => none

/-- Array body after `[` (leading whitespace consumed): elements up to
and including the closing `]`. -/
def parseArrBody : Nat → Str → Option (List JsValue × Str)
  | 0, _ => none
  | _ + 1, ']' :: rest => some ([], rest)
  | fuel + 1, s => parseArrElems fuel s

/-- One or more array elements, separated by commas, ending at `]`. -/
def parseArrElems : Nat → Str → Option (List JsValue × Str)
  | 0, _ => none
  | fuel + 1, s => do
    let (v, r1) ← parseVal fuel s
    match r1.dropWhile isJsonWs with
    | ',' :: r2 => (parseArrElems fuel r2).map (fun p => (v :: p.1, p.2))
    | ']' :: r2 => some ([v], r2)
    | _ => none

end

/-- Model of `JSON.parse`: parse one value and require only whitespace
to remain. -/
def jsonParse (s : Str) : Option JsValue :=
  match parseVal (s.length + 1) s with
  | some (v, rest) => if (rest.dropWhile isJsonWs).isEmpty then some v else none
  | none => none

/-- The string-scanning loop shared by both branches of
`looksLikeJsonAfterComma`: after an opening quote, skip
backslash-escape pairs, stop at the closing quote; returns the suffix
after the closing quote, or `none` when no closing quote is found
(including the case of a trailing backslash, which in the source makes
the scan index overshoot the text). -/
def scanPastStr : Str → Option Str
  | [] => none
  | '\\' :: rest =>
    match rest with
    | [] => none
    | _ :: rest' => scanPastStr rest'
  | '"' :: rest => some rest
  | _ :: rest => scanPastStr rest

/-- Test whether the input starts with `true`, `false` or `null`
(the regex `/^(true|false|null)/`). -/
def startsWithLiteralWord (s : Str) : Bool :=
  match s with
  | 't' :: 'r' :: 'u' :: 'e' :: _ => true
  | 'f' :: 'a' :: 'l' :: 's' :: 'e' :: _ => true
  | 'n' :: 'u' :: 'l' :: 'l' :: _ => true
  | _ => false

/-- `looksLikeJsonAfterComma` from `src/components/JsonUploader.tsx`,
over the text suffix following the comma: does the text continue with a
valid JSON continuation for the current container?  In an array, any
JSON value qualifies (a string only if its own closing quote is followed
by a structural character or end of text); in an object, only a
`"key":` pattern qualifies. -/
def looksLikeJsonAfterComma (s : Str) (inArray : Bool) : Bool :=
  match s.dropWhile isJsWs with
  | [] => false
  | ch :: rest =>
    if inArray then
      if ch = '{' || ch = '[' then true
      else if ('0' ≤ ch && ch ≤ '9') || ch = '-' then true
      else if startsWithLiteralWord (ch :: rest) then true
      else if ch = '"' then
        match scanPastStr rest with
        | some r2 =>
          match r2.dropWhile isJsWs with
          | [] => true
          | c :: _ => c = ',' || c = ']' || c = '}' || c = ':'
        | none => false
      else false
    else
      if ch = '"' then
        match scanPastStr rest with
        | some r2 =>
          match r2.dropWhile isJsWs with
          | ':' :: _ => true
          | _ => false
        | none => false
      else false

/-- The scanning loop of `repairJsonQuotes`, over the remaining text
suffix, with the in-string flag and the container-context stack
(`'a'` = array, `'o'` = object).  Outside a string, characters pass
through and maintain the stack; inside a string, backslash-escape pairs
pass through untouched, and a quote either terminates the string (when
the next significant character is structural for the innermost
container) or is escaped in place. -/
def repairGo : Str → Bool → List Char → Str
  | [], _, _ => []
  | ch :: rest, false, stack =>
    if ch = '"' then ch :: repairGo rest true stack
    else if ch = '[' then ch :: repairGo rest false ('a' :: stack)
    else if ch = '{' then ch :: repairGo rest false ('o' :: stack)
    else if ch = ']' || ch = '}' then ch :: repairGo rest false stack.tail
    else ch :: repairGo rest false stack
  | ch :: rest, true, stack =>
    if ch = '\\' then
      match rest with
      | [] => [ch]
      | d :: rest' => ch :: d :: repairGo rest' true stack
    else if ch = '"' then
      let isStructural :=
        match rest.dropWhile isJsWs with
        | [] => true
        | c :: rest2 =>
          if c = '}' || c = ']' || c = ':' then true
          else if c = ',' then
            looksLikeJsonAfterComma rest2 (stack.headD 'o' = 'a')
          else false
      if isStructural then ch :: repairGo rest false stack
      else '\\' :: '"' :: repairGo rest true stack
    else ch :: repairGo rest true stack

/-- `repairJsonQuotes` from `src/components/JsonUploader.tsx`: escape
unescaped double quotes embedded inside JSON string literals, using
container-aware look-ahead to distinguish them from string
terminators. -/
def repairJsonQuotes (text : Str) : Str :=
  repairGo text false []

/-- A remote field as consumed by `validateFieldsAgainstExisting`:
literal name and precomputed normalized name. -/
structure ExistingField where
  field_name : Str
  normalized_name : Str

/-- JavaScript `Map.prototype.set` for lookup purposes: a later `set`
of the same key shadows an earlier one, modelled by prepending so that
the first hit of `mapGet` is the most recent `set`. -/
def mapSet (m : List (Str × Str)) (k v : Str) : List (Str × Str) :=
  (k, v) :: m

/-- JavaScript `Map.prototype.get` over the `mapSet` representation. -/
def mapGet (m : List (Str × Str)) (k : Str) : Option Str :=
  (m.find? (fun p => p.1 == k)).map (fun p => p.2)

/-- The key under which a field is registered in the normalized-name
map: `field.normalized_name || normalizeFieldName(field.field_name)` -
JavaScript `||` falls back when the stored normalized name is the empty
string. -/
def normKeyOf (f : ExistingField) : Str :=
  if f.normalized_name.isEmpty then normalizeFieldName f.field_name
  else f.normalized_name

/-- The single loop of `validateFieldsAgainstExisting` that fills both
maps, one field at a time: the exact map receives
(literal name → literal name) and the normalized map receives
(normalized key → literal name). -/
def buildMapsFrom (em nm : List (Str × Str)) :
    List ExistingField → List (Str × Str) × List (Str × Str)
  | [] => (em, nm)
  | f :: fs =>
    buildMapsFrom (mapSet em f.field_name f.field_name)
      (mapSet nm (normKeyOf f) f.field_name) fs

/-- Both lookup maps of `validateFieldsAgainstExisting`, built from the
existing fields starting from empty maps. -/
def buildMaps (existing : List ExistingField) :
    List (Str × Str) × List (Str × Str) :=
  buildMapsFrom [] [] existing

/-- JavaScript truthiness of a `Map.get` result whose values are
strings: `undefined` and the empty string are falsy. -/
def truthyStr : Option Str → Bool
  | none => false
  | some s => !s.isEmpty

/-- Bucket of the three-way classification. -/
inductive FieldClass where
  | exactC : FieldClass
  | similarC : FieldClass
  | newC : FieldClass
deriving DecidableEq

/-- The if/else-if/else condition chain in the loop body of
`validateFieldsAgainstExisting`, per incoming name: exact when the
normalized-map hit is truthy, the literal name is a key of the exact
map, and the hit equals the literal name; similar when the hit is
merely truthy; new otherwise. -/
def classifyWith (em nm : List (Str × Str)) (j : Str) : FieldClass :=
  let m := mapGet nm (normalizeFieldName j)
  if truthyStr m && (mapGet em j).isSome && m == some j then .exactC
  else if truthyStr m then .similarC
  else .newC

/-- The per-name classification of `validateFieldsAgainstExisting`
against a list of existing fields. -/
def classifyField (existing : List ExistingField) (j : Str) : FieldClass :=
  classifyWith (buildMaps existing).1 (buildMaps existing).2 j

/-- An entry of `exactMatches`. -/
structure ExactMatch where
  jsonField : Str
  existingField : Str

/-- An entry of `similarMatches`. -/
structure SimilarMatch where
  jsonField : Str
  existingField : Str
  normalizedName : Str

/-- `FieldValidationResult` from `src/lib/lark.ts`. -/
structure FieldValidationResult where
  exactMatches : List ExactMatch
  similarMatches : List SimilarMatch
  newFields : List Str

/-- The classification loop of `validateFieldsAgainstExisting`: each
incoming name is pushed onto exactly one bucket according to
`classifyWith`; an exact match pairs the name with itself, a similar
match pairs it with the normalized-map hit and the shared normalized
form. -/
def validateGo (em nm : List (Str × Str)) : List Str → FieldValidationResult
  | [] => ⟨[], [], []⟩
  | j :: rest =>
    let r := validateGo em nm rest
    match classifyWith em nm j with
    | .exactC => { r with exactMatches := ⟨j, j⟩ :: r.exactMatches }
    | .similarC =>
      { r with similarMatches :=
          ⟨j, (mapGet nm (normalizeFieldName j)).getD [],
           normalizeFieldName j⟩ :: r.similarMatches }
    | .newC => { r with newFields := j :: r.newFields }

/-- `validateFieldsAgainstExisting` from `src/lib/lark.ts`. -/
def validateFieldsAgainstExisting (jsonFields : List Str)
    (existing : List ExistingField) : FieldValidationResult :=
  let maps := buildMaps existing
  validateGo maps.1 maps.2 jsonFields

/-- Decimal-digit test. -/
def isDigit (c : Char) : Bool :=
  '0' ≤ c && c ≤ '9'

/-- Numeric value of a string of decimal digits. -/
def digitsVal (ds : Str) : Nat :=
  ds.foldl (fun a c => a * 10 + (c.toNat - 48)) 0

/-- Mantissa-and-exponent body of a JavaScript numeric string (after
sign): digits with optional fraction, or a bare fraction, optionally
followed by a signed-exponent suffix, consuming the whole string. -/
def numericBody (t : Str) : Bool :=
  let intPart := t.takeWhile isDigit
  let r := t.dropWhile isDigit
  let mantissaOk :=
    match r with
    | '.' :: r' => !intPart.isEmpty || !(r'.takeWhile isDigit).isEmpty
    | _ => !intPart.isEmpty
  let r2 :=
    match r with
    | '.' :: r' => r'.dropWhile isDigit
    | _ => r
  mantissaOk &&
    match r2 with
    | [] => true
    | e :: r3 =>
      (e = 'e' || e = 'E') &&
        (let r4 :=
          match r3 with
          | '+' :: t' => t'
          | '-' :: t' => t'
          | _ => r3
         !(r4.takeWhile isDigit).isEmpty && (r4.dropWhile isDigit).isEmpty)

/-- Optional sign, then a decimal body or `Infinity`. -/
def signedNumericBody (t : Str) : Bool :=
  let r :=
    match t with
    | '+' :: r' => r'
    | '-' :: r' => r'
    | _ => t
  r == "Infinity".toList || numericBody r

/-- Model of `!isNaN(Number(value))` for a string value: the ECMAScript
string-to-number grammar - whitespace-trimmed empty converts to `0`
(not `NaN`), hex/octal/binary literals, or an optionally signed decimal
literal or `Infinity`. -/
def jsNumericStr (s : Str) : Bool :=
  let t := trimJs s
  match t with
  | [] => true
  | '0' :: c :: rest =>
    if c = 'x' || c = 'X' then
      !rest.isEmpty && rest.all (fun d => (hexDigitVal d).isSome)
    else if c = 'o' || c = 'O' then
      !rest.isEmpty && rest.all (fun d => '0' ≤ d && d ≤ '7')
    else if c = 'b' || c = 'B' then
      !rest.isEmpty && rest.all (fun d => d = '0' || d = '1')
    else signedNumericBody t
  | _ => signedNumericBody t

/-- Integer payload of `Number(value)` for a numeric string: sign and
integer part (the fractional value is abstracted away, as for all
number payloads in this development). -/
def jsToNumber (s : Str) : Int :=
  match trimJs s with
  | '-' :: r => -(digitsVal (r.takeWhile isDigit) : Int)
  | '+' :: r => (digitsVal (r.takeWhile isDigit) : Int)
  | r => (digitsVal (r.takeWhile isDigit) : Int)

/-- Leading and trailing C0-control-or-space stripping performed by the
WHATWG URL parser before parsing. -/
def stripC0Space (s : Str) : Str :=
  ((s.dropWhile (fun c => c.toNat ≤ 32)).reverse.dropWhile
    (fun c => c.toNat ≤ 32)).reverse

/-- ASCII-lowercase a character. -/
def asciiLower (c : Char) : Char :=
  if 'A' ≤ c && c ≤ 'Z' then Char.ofNat (c.toNat + 32) else c

/-- Scheme of an absolute URL: a leading ASCII letter, then ASCII
letters/digits/`+`/`-`/`.`, then a colon; returns the lowercased scheme
and the remainder. -/
def parseScheme (s : Str) : Option (Str × Str) :=
  match s with
  | c :: _ =>
    if ('a' ≤ c && c ≤ 'z') || ('A' ≤ c && c ≤ 'Z') then
      let isSchemeChar := fun d =>
        ('a' ≤ d && d ≤ 'z') || ('A' ≤ d && d ≤ 'Z') ||
        ('0' ≤ d && d ≤ '9') || d = '+' || d = '-' || d = '.'
      match s.dropWhile isSchemeChar with
      | ':' :: rest => some ((s.takeWhile isSchemeChar).map asciiLower, rest)
      | _ => none
    else none
  | [] => none

/-- Code points the WHATWG URL parser forbids in a host. -/
def isForbiddenHostChar (c : Char) : Bool :=
  c.toNat = 0 || c = '\t' || c = '\n' || c = '\r' || c = ' ' ||
  c = '#' || c = '/' || c = ':' || c = '<' || c = '>' || c = '?' ||
  c = '@' || c = '[' || c = '\\' || c = ']' || c = '^' || c = '|'

/-- Model of the platform's `new URL(value)` succeeding with protocol
`http:` or `https:`: the WHATWG parser's edge stripping and tab/newline
removal, an `http`/`https` scheme, and a nonempty host (an optional
all-digit port allowed) free of forbidden host code points.  (Userinfo
and IPv6 host syntax are outside the model; no input in this
development uses them.) -/
def urlIsHttpAbsolute (s : Str) : Bool :=
  let t := (stripC0Space s).filter
    (fun c => !(c = '\t' || c = '\n' || c = '\r'))
  match parseScheme t with
  | some (sch, rest) =>
    (sch == "http".toList || sch == "https".toList) &&
      (let afterSlashes := rest.dropWhile (fun c => c = '/')
       let hostPort := afterSlashes.takeWhile
         (fun c => !(c = '/' || c = '?' || c = '#'))
       let host := hostPort.takeWhile (fun c => c ≠ ':')
       let port :=
         match hostPort.dropWhile (fun c => c ≠ ':') with
         | ':' :: p => some p
         | _ => none
       !host.isEmpty && host.all (fun c => !isForbiddenHostChar c) &&
         match port with
         | some p => p.all isDigit
         | none => true)
  | none => false

/-- `isValidUrl` from `src/lib/lark.ts`: strings only, non-blank after
trimming, and accepted by the URL parser with an `http`/`https`
protocol. -/
def isValidUrl (v : JsValue) : Bool :=
  match v with
  | .vStr s => !(trimJs s).isEmpty && urlIsHttpAbsolute s
  | _ => false

/-- The provider's URL-field value shape produced by the transformer:
`\x7b link: String(value), text: String(value) \x7d`. -/
def linkValue (s : Str) : JsValue :=
  .vObj [("link".toList, .vStr s), ("text".toList, .vStr s)]

/-- Key resolution in `processFieldValues`:
`fieldMapping.get(normalizeFieldName(key)) || key` - the fallback also
fires when the mapped name is the empty string (JS falsiness).  An
absent optional `fieldMapping` behaves as the empty map. -/
def resolveKey (fm : List (Str × Str)) (k : Str) : Str :=
  match mapGet fm (normalizeFieldName k) with
  | some w => if w.isEmpty then k else w
  | none => k

/-- `Set.prototype.has` over a list of names; an absent optional set
behaves as the empty list. -/
def setHas (s : List Str) (k : Str) : Bool :=
  s.any (fun x => x == k)

/-- The loop body of `processFieldValues` for one `[key, value]` entry:
resolve the target name; drop null/undefined/empty-string values; for
URL-typed targets keep only valid URLs, as the provider's link shape;
for number-typed targets keep numbers and numeric strings, as numbers;
otherwise serialize arrays/objects to JSON text and stringify scalars.
Returns the written `(key, value)` pair, or `none` when the entry is
dropped. -/
def transformEntry (fm : List (Str × Str)) (urlF numF : List Str)
    (k : Str) (v : JsValue) : Option (Str × JsValue) :=
  let actualKey := resolveKey fm k
  let isEmptyVal :=
    match v with
    | .vNull => true
    | .vStr [] => true
    | _ => false
  if isEmptyVal then none
  else if setHas urlF actualKey then
    if isValidUrl v then
      match v with
      | .vStr s => some (actualKey, linkValue s)
      | _ => none
    else none
  else if setHas numF actualKey then
    match v with
    | .vNum n => some (actualKey, .vNum n)
    | .vStr s =>
      if jsNumericStr s && !(trimJs s).isEmpty then
        some (actualKey, .vNum (jsToNumber s))
      else none
    | _ => none
  else
    match v with
    | .vArr _ => some (actualKey, .vStr (jsonStringify v))
    | .vObj _ => some (actualKey, .vStr (jsonStringify v))
    | .vStr s => some (actualKey, .vStr s)
    | .vNum n => some (actualKey, .vStr (intToStr n))
    | .vBool true => some (actualKey, .vStr "true".toList)
    | .vBool false => some (actualKey, .vStr "false".toList)
    | .vNull => none

/-- JavaScript object-property assignment `processed[actualKey] = v`:
update in place when the key exists, append otherwise. -/
def objSet (m : List (Str × JsValue)) (k : Str) (v : JsValue) :
    List (Str × JsValue) :=
  match m with
  | [] => [(k, v)]
  | (k', v') :: rest =>
    if k' == k then (k, v) :: rest else (k', v') :: objSet rest k v

/-- `processFieldValues` from `src/lib/lark.ts`: transform each entry
of a record (in property order) and assign the kept ones into the
outgoing field map. -/
def processFieldValues (fields : List (Str × JsValue))
    (fm : List (Str × Str)) (urlF numF : List Str) :
    List (Str × JsValue) :=
  fields.foldl
    (fun acc kv =>
      match transformEntry fm urlF numF kv.1 kv.2 with
      | none => acc
      | some (k', v') => objSet acc k' v')
    []

/-- Outcome of one bulk-create call as `batchCreateRecords` observes
it: a thrown transport error with its message, or a provider response
with code, message, and optionally the created records' ids. -/
inductive ChunkResp where
  | thrown : String → ChunkResp
  | api : Int → String → Option (List String) → ChunkResp

/-- Whether a chunk outcome takes the failure path in
`batchCreateRecords` (thrown, or nonzero provider code). -/
def chunkFailB : ChunkResp → Bool
  | .thrown _ => true
  | .api c _ _ => c ≠ 0

/-- The per-record error message recorded for a failed chunk. -/
def chunkErrMsg : ChunkResp → String
  | .thrown m => m
  | .api c m _ => "Lark API Error: " ++ m ++ " (code: " ++ toString c ++ ")"

/-- `BatchCreateResult` from `src/lib/lark.ts`; errors as
`(index, message)` pairs. -/
structure BatchCreateResult where
  successCount : Nat
  failedCount : Nat
  recordIds : List String
  errors : List (Nat × String)

/-- The chunk size hard-coded as `BATCH_SIZE` (the remote API's
ceiling). -/
def BATCH_SIZE : Nat := 500

/-- Contribution of one chunk to the aggregated result: a failure
(thrown, or nonzero code) marks every record of the chunk failed at its
absolute index with a shared message; a code-0 response accumulates the
returned ids; a code-0 response without a records payload contributes
nothing (as in the source, which checks `data.data?.records`). -/
def processChunk (resp : ChunkResp) (s : Nat) (len : Nat) :
    BatchCreateResult :=
  if chunkFailB resp then
    ⟨0, len, [], (List.range len).map (fun j => (s + j, chunkErrMsg resp))⟩
  else
    match resp with
    | .api _ _ (some ids) => ⟨ids.length, 0, ids, []⟩
    | _ => ⟨0, 0, [], []⟩

/-- Pointwise accumulation of chunk results, in chunk order. -/
def combineBatch (a b : BatchCreateResult) : BatchCreateResult :=
  ⟨a.successCount + b.successCount, a.failedCount + b.failedCount,
   a.recordIds ++ b.recordIds, a.errors ++ b.errors⟩

/-- The chunking loop of `batchCreateRecords`: `k` is the chunk
ordinal, `s` the absolute index of the chunk's first record; each
iteration slices off `BATCH_SIZE` records, builds the request payload
through `processFieldValues`, and accumulates the chunk's outcome.
`respond k` is the remote's behavior on the `k`-th call. -/
def batchGo (respond : Nat → ChunkResp) (fm : List (Str × Str))
    (urlF numF : List Str) (k s : Nat)
    (rest : List (List (Str × JsValue))) : BatchCreateResult :=
  match rest with
  | [] => ⟨0, 0, [], []⟩
  | x :: tl =>
    let batch := (x :: tl).take BATCH_SIZE
    let _payload := batch.map (fun fields => processFieldValues fields fm urlF numF)
    combineBatch (processChunk (respond k) s batch.length)
      (batchGo respond fm urlF numF (k + 1) (s + batch.length)
        ((x :: tl).drop BATCH_SIZE))
termination_by rest.length
decreasing_by
  simp only [List.length_drop, List.length_cons, BATCH_SIZE]
  omega

/-- `batchCreateRecords` from `src/lib/lark.ts` (the token and table
addressing of the remote calls are irrelevant to the result and
abstracted into `respond`). -/
def batchCreateRecords (respond : Nat → ChunkResp)
    (records : List (List (Str × JsValue))) (fm : List (Str × Str))
    (urlF numF : List Str) : BatchCreateResult :=
  batchGo respond fm urlF numF 0 0 records

/-- The `k`-th chunk of a record list. -/
def chunkAt (records : List (List (Str × JsValue))) (k : Nat) :
    List (List (Str × JsValue)) :=
  (records.drop (BATCH_SIZE * k)).take BATCH_SIZE

/-- A response is well formed for a chunk of `len` records when it is a
failure, or a success carrying one created id per record - the
success/failure discipline of the provider's bulk-write interface. -/
def respWellFormed (resp : ChunkResp) (len : Nat) : Prop :=
  chunkFailB resp = true ∨
    ∃ msg ids, resp = .api 0 msg (some ids) ∧ ids.length = len

/-- The `normalizedToIncoming` map built by the import route (step 4 of
`POST` in `src/app/api/import/route.ts`): first incoming spelling per
normalized key, in insertion order, across all records' keys. -/
def normalizedToIncoming (records : List (List Str)) : List (Str × Str) :=
  records.foldl
    (fun acc keys =>
      keys.foldl
        (fun acc2 k =>
          let nk := normalizeFieldName k
          if acc2.any (fun p => p.1 == nk) then acc2 else acc2 ++ [(nk, k)])
        acc)
    []

/-- `missingFields` of the import route (step 5): the first incoming
spelling of every normalized key not present among the existing fields'
normalized names. -/
def missingFields (records : List (List Str)) (existingNorms : List Str) :
    List Str :=
  ((normalizedToIncoming records).filter
    (fun p => !(existingNorms.any (fun e => e == p.1)))).map (fun p => p.2)

/-- Outcome of an import run as observed at the route's outer boundary:
the response (error message or success), the remote fields created
during the run, and whether control reached the batch-write phase. -/
structure RunOutcome where
  response : Except String Unit
  createdFields : List Str
  batchPhaseReached : Bool

/-- The field-creation loop of the import route (step 5): fields are
created one at a time, in order; the `idx`-th creation behaves as
`outcome idx`; the first failure rethrows, ending the loop with the
fields created so far. -/
def syncLoop (outcome : Nat → Except String Unit) :
    Nat → List Str → List Str → List Str × Option String
  | _, created, [] => (created, none)
  | idx, created, f :: rest =>
    match outcome idx with
    | .ok _ => syncLoop outcome (idx + 1) (created ++ [f]) rest
    | .error msg => (created, some msg)

/-- The import route's schema-synchronization and write phases
(`POST` of `src/app/api/import/route.ts`, steps 4-6 inside the outer
try/catch): compute the missing fields, create them sequentially, and
only if every creation succeeds proceed to the batch-write phase; a
creation failure propagates to the outer catch, which reports the error
(fields already created stay created - there is no rollback in the
source).  Remote creation calls are abstracted into `outcome`; the
token fetch, field-type selection and the batch call's own result are
irrelevant to this observation and omitted. -/
def runImport (records : List (List Str)) (existingFieldNames : List Str)
    (outcome : Nat → Except String Unit) : RunOutcome :=
  let existingNorms := existingFieldNames.map normalizeFieldName
  let missing := missingFields records existingNorms
  match syncLoop outcome 0 [] missing with
  | (created, some msg) => ⟨.error msg, created, false⟩
  | (created, none) => ⟨.ok (), created, true⟩

/-- The quote-repair test input with an object context:
`\x7b"a": "he said "hi" to me"\x7d`. -/
def quoteRepairObjInput : Str :=
  "\x7b\"a\": \"he said \"hi\" to me\"\x7d".toList

/-- The correctly escaped form of `quoteRepairObjInput`:
`\x7b"a": "he said \"hi\" to me"\x7d`. -/
def quoteRepairObjEscaped : Str :=
  "\x7b\"a\": \"he said \\\"hi\\\" to me\"\x7d".toList

/-- The quote-repair test input with an array context:
`["a "b" c", "d"]`. -/
def quoteRepairArrInput : Str :=
  "[\"a \"b\" c\", \"d\"]".toList

/-- A field name on which removing the zero-width space (U+200B)
after NFKC normalization creates a new composable pair: `e`, zero-width
space, combining acute accent. -/
def nfkcTrapName : Str :=
  ['e', '\u200B', '\u0301']

/-- JSON text with a zero-width space inside a string literal, away
from the edges: `\x7b"a":"x<U+200B>y"\x7d`. -/
def zwspInStringText : Str :=
  "\x7b\"a\":\"x\u200By\"\x7d".toList

/-- Text with soft hyphens (U+00AD) at both edges. -/
def softHyphenText : Str :=
  ['\u00AD', 'a', 'b', 'c', '\u00AD']

/-- An existing remote field whose literal name is the empty string
(its normalized name, stored or recomputed, is empty as well). -/
def emptyNameField : ExistingField :=
  ⟨[], []⟩

end LarkImporter

namespace LarkImporter

/-- C3: the recovery parser's quote repair turns the object input with
embedded quotes into text that parses to the same JSON value as parsing
the correctly escaped form, and turns the array input into a two-element
array of the expected strings (not three or more elements). -/
theorem repairJsonQuotes_examples :
    jsonParse (repairJsonQuotes quoteRepairObjInput) =
      some (.vObj [("a".toList, .vStr "he said \"hi\" to me".toList)]) ∧
    jsonParse quoteRepairObjEscaped =
      some (.vObj [("a".toList, .vStr "he said \"hi\" to me".toList)]) ∧
    jsonParse (repairJsonQuotes quoteRepairArrInput) =
      some (.vArr [.vStr "a \"b\" c".toList, .vStr "d".toList]) :=
  ⟨rfl, rfl, rfl⟩

/-- C5: `normalizeFieldName` is not idempotent.  On `e` + zero-width
space + combining acute, one application removes the zero-width space
after NFKC normalization, leaving the non-normal pair `e` + U+0301; a
second application composes that pair to U+00E9, so normalizing twice
differs from normalizing once. -/
theorem normalizeFieldName_not_idempotent :
    normalizeFieldName nfkcTrapName = ['e', '\u0301'] ∧
    normalizeFieldName (normalizeFieldName nfkcTrapName) = ['\u00E9'] ∧
    normalizeFieldName (normalizeFieldName nfkcTrapName) ≠
      normalizeFieldName nfkcTrapName := by
  refine ⟨rfl, rfl, ?_⟩
  decide

/-- C6 counterexample: `sanitizeJsonText` removes a zero-width space
that sits inside a string literal away from the edges (the claim says
characters inside string literals are left untouched), and does not
remove soft hyphens even at the edges (the claim says soft hyphens are
removed there). -/
theorem sanitizeJsonText_counterexample :
    sanitizeJsonText zwspInStringText = "\x7b\"a\":\"xy\"\x7d".toList ∧
    sanitizeJsonText softHyphenText = softHyphenText := by
  constructor
  · decide
  · decide

lemma head?_dropWhile_not (p : Char → Bool) (l : Str) :
    ∀ c, (l.dropWhile p).head? = some c → p c = false := by
  induction l with
  | nil => intro c h; simp [List.dropWhile] at h
  | cons a as ih =>
    intro c h
    by_cases ha : p a
    · rw [List.dropWhile_cons_of_pos ha] at h
      exact ih c h
    · rw [List.dropWhile_cons_of_neg ha] at h
      simp only [List.head?_cons, Option.some.injEq] at h
      subst h
      simpa using ha

lemma dropWhile_isSuffix (p : Char → Bool) (l : Str) : l.dropWhile p <:+ l := by
  induction l with
  | nil => exact List.suffix_refl []
  | cons a as ih =>
    by_cases ha : p a
    · rw [List.dropWhile_cons_of_pos ha]
      exact ih.trans (List.suffix_cons a as)
    · rw [List.dropWhile_cons_of_neg ha]

lemma head?_isPrefix (l₁ l₂ : Str) (h : l₁ <+: l₂) :
    ∀ c, l₁.head? = some c → l₂.head? = some c := by
  intro c hc
  obtain ⟨t, ht⟩ := h
  cases l₁ with
  | nil => simp at hc
  | cons a as =>
    simp only [List.head?_cons, Option.some.injEq] at hc
    subst hc
    rw [← ht]
    rfl

lemma count_dropWhile_of_not (p : Char → Bool) (a : Char) (ha : p a = false)
    (l : Str) : (l.dropWhile p).count a = l.count a := by
  induction l with
  | nil => rfl
  | cons c cs ih =>
    by_cases hc : p c
    · rw [List.dropWhile_cons_of_pos hc, ih, List.count_cons]
      have : (c == a) = false := by
        cases hca : (c == a)
        · rfl
        · exact absurd ha (by rw [← eq_of_beq hca]; simp [hc])
      simp [this]
    · rw [List.dropWhile_cons_of_neg hc]

lemma count_stripBom_softHyphen (t : Str) :
    (stripBom t).count '\u00AD' = t.count '\u00AD' := by
  cases t with
  | nil => rfl
  | cons c cs =>
    by_cases hc : c = '\uFEFF'
    · subst hc
      simp [stripBom, List.count_cons]
    · simp [stripBom, hc]

/-- C6 (amended): `sanitizeJsonText` leaves no zero-width character
anywhere in its output (string-literal interiors included), its output
neither starts nor ends with a whitespace/zero-width character, and
soft hyphens are never removed (their count is preserved). -/
theorem sanitizeJsonText_spec (t : Str) :
    (∀ c ∈ sanitizeJsonText t, isZeroWidth c = false) ∧
    (∀ c, (sanitizeJsonText t).head? = some c → isEdgeJunk c = false) ∧
    (∀ c, (sanitizeJsonText t).getLast? = some c → isEdgeJunk c = false) ∧
    (sanitizeJsonText t).count '\u00AD' = t.count '\u00AD' := by
  have hzw_edge : ∀ c : Char, isZeroWidth c = true → isEdgeJunk c = true := by
    intro c hc
    simp [isEdgeJunk, hc]
  have hfilter_head :
      ∀ l : Str, (∀ c, l.head? = some c → isEdgeJunk c = false) →
        ∀ c, (l.filter (fun c => !isZeroWidth c)).head? = some c →
          isEdgeJunk c = false := by
    intro l hl c hc
    cases l with
    | nil => simp [List.filter] at hc
    | cons a as =>
      have ha := hl a rfl
      have hka : (!isZeroWidth a) = true := by
        cases hza : isZeroWidth a
        · rfl
        · exact absurd (hzw_edge a hza) (by simp [ha])
      simp only [List.filter_cons, hka, if_true, List.head?_cons,
        Option.some.injEq] at hc
      subst hc
      exact ha
  set t2 := ((stripBom t).dropWhile isEdgeJunk) with ht2
  set t3 := ((t2.reverse.dropWhile isEdgeJunk).reverse) with ht3
  have hsan : sanitizeJsonText t = t3.filter (fun c => !isZeroWidth c) := rfl
  refine ⟨?_, ?_, ?_, ?_⟩
  · intro c hc
    rw [hsan, List.mem_filter] at hc
    simpa using hc.2
  · -- head
    rw [hsan]
    apply hfilter_head
    intro c hc
    have hpre : t3 <+: t2 := by
      have hs : t2.reverse.dropWhile isEdgeJunk <:+ t2.reverse :=
        dropWhile_isSuffix _ _
      have := List.reverse_prefix.mpr hs
      rwa [List.reverse_reverse] at this
    exact head?_dropWhile_not isEdgeJunk (stripBom t) c
      (head?_isPrefix t3 t2 hpre c hc)
  · -- last
    rw [hsan]
    intro c hc
    rw [List.getLast?_eq_head?_reverse, ← List.filter_reverse] at hc
    have ht3r : t3.reverse = t2.reverse.dropWhile isEdgeJunk := by
      rw [ht3, List.reverse_reverse]
    rw [ht3r] at hc
    have hstep :
        ∀ c', (t2.reverse.dropWhile isEdgeJunk).head? = some c' →
          isEdgeJunk c' = false :=
      head?_dropWhile_not isEdgeJunk t2.reverse
    cases hl : t2.reverse.dropWhile isEdgeJunk with
    | nil => rw [hl] at hc; simp [List.filter] at hc
    | cons a as =>
      have ha := hstep a (by rw [hl]; rfl)
      have hka : (!isZeroWidth a) = true := by
        cases hza : isZeroWidth a
        · rfl
        · exact absurd (hzw_edge a hza) (by simp [ha])
      rw [hl] at hc
      simp only [List.filter_cons, hka, if_true, List.head?_cons,
        Option.some.injEq] at hc
      subst hc
      exact ha
  · -- soft hyphen count
    rw [hsan]
    have h1 : (t3.filter (fun c => !isZeroWidth c)).count '\u00AD' =
        t3.count '\u00AD' :=
      List.count_filter (by decide)
    have h2 : t3.count '\u00AD' = t2.count '\u00AD' := by
      rw [ht3, List.count_reverse,
        count_dropWhile_of_not isEdgeJunk '\u00AD' (by decide),
        List.count_reverse]
    have h3 : t2.count '\u00AD' = (stripBom t).count '\u00AD' :=
      count_dropWhile_of_not isEdgeJunk '\u00AD' (by decide) _
    rw [h1, h2, h3, count_stripBom_softHyphen]

end LarkImporter

namespace LarkImporter

lemma mapGet_cons (a b : Str) (m : List (Str × Str)) (k : Str) :
    mapGet ((a, b) :: m) k = if (a == k) then some b else mapGet m k := by
  by_cases h : (a == k) = true
  · simp [mapGet, List.find?_cons_of_pos, h]
  · simp only [Bool.not_eq_true] at h
    simp [mapGet, List.find?_cons_of_neg, h]

lemma buildMapsFrom_invariant (fs : List ExistingField) :
    ∀ (em nm : List (Str × Str)),
      (∀ k w, mapGet nm k = some w → mapGet em w = some w) →
      ∀ k w, mapGet (buildMapsFrom em nm fs).2 k = some w →
        mapGet (buildMapsFrom em nm fs).1 w = some w := by
  induction fs with
  | nil => intro em nm h k w hk; exact h k w hk
  | cons f fs ih =>
    intro em nm h k w
    apply ih
    intro k' w' hk'
    rw [mapSet, mapGet_cons] at hk'
    rw [mapSet, mapGet_cons]
    by_cases hkey : (normKeyOf f == k') = true
    · rw [if_pos hkey] at hk'
      injection hk' with hk'
      subst hk'
      simp
    · rw [if_neg (by simpa using hkey)] at hk'
      have hw := h k' w' hk'
      by_cases hfn : (f.field_name == w') = true
      · rw [if_pos hfn]
        rw [eq_of_beq hfn]
      · rw [if_neg (by simpa using hfn)]
        exact hw

lemma buildMaps_lookup_in_exact (existing : List ExistingField)
    (k w : Str) (h : mapGet (buildMaps existing).2 k = some w) :
    mapGet (buildMaps existing).1 w = some w := by
  refine buildMapsFrom_invariant existing [] [] ?_ k w h
  intro k' w' hk'
  simp [mapGet, List.find?] at hk'

lemma classify_exactC_iff (existing : List ExistingField) (j : Str) :
    classifyField existing j = .exactC ↔
      (mapGet (buildMaps existing).2 (normalizeFieldName j) = some j ∧
        j ≠ []) := by
  unfold classifyField classifyWith
  cases hm : mapGet (buildMaps existing).2 (normalizeFieldName j) with
  | none => simp [truthyStr]
  | some w =>
    by_cases hw : w = j
    · subst hw
      by_cases hnil : w = []
      · subst hnil
        simp [truthyStr]
      · have htr : truthyStr (some w) = true := by
          simp [truthyStr, List.isEmpty_iff, hnil]
        have hex := buildMaps_lookup_in_exact existing _ _ hm
        simp [htr, hex, hnil]
    · have : ((some w == some j) = false) := by
        simp [hw]
      simp only [this, Bool.and_false]
      constructor
      · intro hcl
        by_cases htr : truthyStr (some w) = true <;>
          simp [htr] at hcl
      · rintro ⟨hj, -⟩
        injection hj with hj
        exact absurd hj hw

lemma classify_similarC_iff (existing : List ExistingField) (j : Str) :
    classifyField existing j = .similarC ↔
      ∃ w, mapGet (buildMaps existing).2 (normalizeFieldName j) = some w ∧
        w ≠ [] ∧ w ≠ j := by
  unfold classifyField classifyWith
  cases hm : mapGet (buildMaps existing).2 (normalizeFieldName j) with
  | none => simp [truthyStr]
  | some w =>
    by_cases hnil : w = []
    · subst hnil
      simp [truthyStr]
    · have htr : truthyStr (some w) = true := by
        simp [truthyStr, List.isEmpty_iff, hnil]
      by_cases hw : w = j
      · subst hw
        have hex := buildMaps_lookup_in_exact existing _ _ hm
        simp [htr, hex, hnil]
      · have hbeq : ((some w == some j) = false) := by
          simp [hw]
        simp [htr, hbeq, hnil, hw]

lemma classify_newC_iff (existing : List ExistingField) (j : Str) :
    classifyField existing j = .newC ↔
      (mapGet (buildMaps existing).2 (normalizeFieldName j) = none ∨
        mapGet (buildMaps existing).2 (normalizeFieldName j) = some []) := by
  unfold classifyField classifyWith
  cases hm : mapGet (buildMaps existing).2 (normalizeFieldName j) with
  | none => simp [truthyStr]
  | some w =>
    by_cases hnil : w = []
    · subst hnil
      simp [truthyStr]
    · have htr : truthyStr (some w) = true := by
        simp [truthyStr, List.isEmpty_iff, hnil]
      by_cases hw : w = j
      · subst hw
        have hex := buildMaps_lookup_in_exact existing _ _ hm
        simp [htr, hex, hnil]
      · have hbeq : ((some w == some j) = false) := by
          simp [hw]
        simp [htr, hbeq, hnil]

lemma validateGo_exactMatches (em nm : List (Str × Str)) (js : List Str) :
    (validateGo em nm js).exactMatches =
      (js.filter (fun j => classifyWith em nm j == FieldClass.exactC)).map
        (fun j => ExactMatch.mk j j) := by
  induction js with
  | nil => rfl
  | cons j rest ih =>
    cases hc : classifyWith em nm j <;>
      simp [validateGo, hc, List.filter_cons, ih]

lemma validateGo_similarMatches (em nm : List (Str × Str)) (js : List Str) :
    (validateGo em nm js).similarMatches =
      (js.filter (fun j => classifyWith em nm j == FieldClass.similarC)).map
        (fun j => SimilarMatch.mk j
          ((mapGet nm (normalizeFieldName j)).getD [])
          (normalizeFieldName j)) := by
  induction js with
  | nil => rfl
  | cons j rest ih =>
    cases hc : classifyWith em nm j <;>
      simp [validateGo, hc, List.filter_cons, ih]

lemma validateGo_newFields (em nm : List (Str × Str)) (js : List Str) :
    (validateGo em nm js).newFields =
      js.filter (fun j => classifyWith em nm j == FieldClass.newC) := by
  induction js with
  | nil => rfl
  | cons j rest ih =>
    cases hc : classifyWith em nm j <;>
      simp [validateGo, hc, List.filter_cons, ih]

lemma validate_exact_names (jsonFields : List Str)
    (existing : List ExistingField) :
    (validateFieldsAgainstExisting jsonFields existing).exactMatches.map
        ExactMatch.jsonField =
      jsonFields.filter (fun j => classifyField existing j == .exactC) := by
  unfold validateFieldsAgainstExisting
  rw [validateGo_exactMatches, List.map_map]
  have h : (ExactMatch.jsonField ∘ fun j => ExactMatch.mk j j) = id := rfl
  rw [h, List.map_id]
  rfl

lemma validate_similar_names (jsonFields : List Str)
    (existing : List ExistingField) :
    (validateFieldsAgainstExisting jsonFields existing).similarMatches.map
        SimilarMatch.jsonField =
      jsonFields.filter (fun j => classifyField existing j == .similarC) := by
  unfold validateFieldsAgainstExisting
  rw [validateGo_similarMatches, List.map_map]
  have h : (SimilarMatch.jsonField ∘ fun j =>
      SimilarMatch.mk j
        ((mapGet (buildMaps existing).2 (normalizeFieldName j)).getD [])
        (normalizeFieldName j)) = id := rfl
  rw [h, List.map_id]
  rfl

lemma validate_new_names (jsonFields : List Str)
    (existing : List ExistingField) :
    (validateFieldsAgainstExisting jsonFields existing).newFields =
      jsonFields.filter (fun j => classifyField existing j == .newC) := by
  unfold validateFieldsAgainstExisting
  rw [validateGo_newFields]
  rfl

/-- C2: every incoming field name lands in exactly one of the three
buckets of `validateFieldsAgainstExisting` - it appears in at least one
bucket, and in no two buckets at once. -/
theorem validateFields_partition (jsonFields : List Str)
    (existing : List ExistingField) (j : Str) (hj : j ∈ jsonFields) :
    (j ∈ (validateFieldsAgainstExisting jsonFields existing).exactMatches.map
        ExactMatch.jsonField ∨
      j ∈ (validateFieldsAgainstExisting jsonFields existing).similarMatches.map
        SimilarMatch.jsonField ∨
      j ∈ (validateFieldsAgainstExisting jsonFields existing).newFields) ∧
    ¬(j ∈ (validateFieldsAgainstExisting jsonFields existing).exactMatches.map
        ExactMatch.jsonField ∧
      j ∈ (validateFieldsAgainstExisting jsonFields existing).similarMatches.map
        SimilarMatch.jsonField) ∧
    ¬(j ∈ (validateFieldsAgainstExisting jsonFields existing).exactMatches.map
        ExactMatch.jsonField ∧
      j ∈ (validateFieldsAgainstExisting jsonFields existing).newFields) ∧
    ¬(j ∈ (validateFieldsAgainstExisting jsonFields existing).similarMatches.map
        SimilarMatch.jsonField ∧
      j ∈ (validateFieldsAgainstExisting jsonFields existing).newFields) := by
  rw [validate_exact_names, validate_similar_names, validate_new_names]
  simp only [List.mem_filter, beq_iff_eq]
  refine ⟨?_, ?_, ?_, ?_⟩
  · cases hc : classifyField existing j
    · exact Or.inl ⟨hj, rfl⟩
    · exact Or.inr (Or.inl ⟨hj, rfl⟩)
    · exact Or.inr (Or.inr ⟨hj, rfl⟩)
  · rintro ⟨⟨-, h₁⟩, ⟨-, h₂⟩⟩
    rw [h₁] at h₂
    cases h₂
  · rintro ⟨⟨-, h₁⟩, ⟨-, h₂⟩⟩
    rw [h₁] at h₂
    cases h₂
  · rintro ⟨⟨-, h₁⟩, ⟨-, h₂⟩⟩
    rw [h₁] at h₂
    cases h₂

theorem validateFields_partition_witness :
    ("a".toList ∈
        (validateFieldsAgainstExisting ["a".toList] []).exactMatches.map
          ExactMatch.jsonField ∨
      "a".toList ∈
        (validateFieldsAgainstExisting ["a".toList] []).similarMatches.map
          SimilarMatch.jsonField ∨
      "a".toList ∈ (validateFieldsAgainstExisting ["a".toList] []).newFields) ∧
    ¬("a".toList ∈
        (validateFieldsAgainstExisting ["a".toList] []).exactMatches.map
          ExactMatch.jsonField ∧
      "a".toList ∈
        (validateFieldsAgainstExisting ["a".toList] []).similarMatches.map
          SimilarMatch.jsonField) ∧
    ¬("a".toList ∈
        (validateFieldsAgainstExisting ["a".toList] []).exactMatches.map
          ExactMatch.jsonField ∧
      "a".toList ∈ (validateFieldsAgainstExisting ["a".toList] []).newFields) ∧
    ¬("a".toList ∈
        (validateFieldsAgainstExisting ["a".toList] []).similarMatches.map
          SimilarMatch.jsonField ∧
      "a".toList ∈ (validateFieldsAgainstExisting ["a".toList] []).newFields) :=
  validateFields_partition ["a".toList] [] "a".toList (by decide)

end LarkImporter

namespace LarkImporter

/-- C4 counterexample: with a single existing field whose literal name
is the empty string, the incoming empty name has a normalized form
equal to the existing field's normalized form and a literal name equal
to the existing field's literal name - by the claim it must classify
exact - yet `validateFieldsAgainstExisting` classifies it new (the
JavaScript truthiness test on the looked-up name rejects the empty
string). -/
theorem validateFields_exact_claim_counterexample :
    normalizeFieldName ([] : Str) =
      normalizeFieldName emptyNameField.field_name ∧
    normKeyOf emptyNameField = normalizeFieldName ([] : Str) ∧
    ([] : Str) = emptyNameField.field_name ∧
    (validateFieldsAgainstExisting [[]] [emptyNameField]).exactMatches = [] ∧
    (validateFieldsAgainstExisting [[]] [emptyNameField]).newFields = [[]] :=
  ⟨rfl, rfl, rfl, rfl, rfl⟩

/-- C4 (amended): per incoming name, with `lookup` the normalized-name
map's hit for the name's normalized form (the literal name of the last
existing field in list order registered under that normalized key):
the name is exact iff `lookup` is the name itself and nonempty; similar
iff `lookup` is some other nonempty literal name, the similar entry
pairing the name with that literal name and with the name's normalized
form; and new iff there is no hit or the hit is the empty string. -/
theorem validateFields_classification (jsonFields : List Str)
    (existing : List ExistingField) (j : Str) (hj : j ∈ jsonFields) :
    (j ∈ (validateFieldsAgainstExisting jsonFields existing).exactMatches.map
        ExactMatch.jsonField ↔
      (mapGet (buildMaps existing).2 (normalizeFieldName j) = some j ∧
        j ≠ [])) ∧
    (j ∈ (validateFieldsAgainstExisting jsonFields existing).similarMatches.map
        SimilarMatch.jsonField ↔
      ∃ w, mapGet (buildMaps existing).2 (normalizeFieldName j) = some w ∧
        w ≠ [] ∧ w ≠ j) ∧
    (j ∈ (validateFieldsAgainstExisting jsonFields existing).newFields ↔
      (mapGet (buildMaps existing).2 (normalizeFieldName j) = none ∨
        mapGet (buildMaps existing).2 (normalizeFieldName j) = some [])) ∧
    (∀ sm ∈ (validateFieldsAgainstExisting jsonFields existing).similarMatches,
      sm.jsonField = j →
        some sm.existingField =
          mapGet (buildMaps existing).2 (normalizeFieldName j) ∧
        sm.normalizedName = normalizeFieldName j) := by
  refine ⟨?_, ?_, ?_, ?_⟩
  · rw [validate_exact_names, List.mem_filter]
    rw [← classify_exactC_iff]
    simp [hj]
  · rw [validate_similar_names, List.mem_filter]
    rw [← classify_similarC_iff]
    simp [hj]
  · rw [validate_new_names, List.mem_filter]
    rw [← classify_newC_iff]
    simp [hj]
  · intro sm hsm hname
    unfold validateFieldsAgainstExisting at hsm
    rw [validateGo_similarMatches, List.mem_map] at hsm
    obtain ⟨j', hj', hmk⟩ := hsm
    rw [List.mem_filter] at hj'
    have hcls : classifyField existing j' = .similarC := by
      have := hj'.2
      simpa using this
    obtain ⟨w, hw, hwne, hwj⟩ := (classify_similarC_iff existing j').mp hcls
    have hjf : sm.jsonField = j' := by rw [← hmk]
    have hje : j' = j := by rw [← hjf, hname]
    subst hje
    constructor
    · rw [← hmk]
      simp [hw]
    · rw [← hmk]

theorem validateFields_classification_witness :
    (("x".toList ∈
        (validateFieldsAgainstExisting ["x".toList] []).exactMatches.map
          ExactMatch.jsonField ↔
      (mapGet (buildMaps ([] : List ExistingField)).2
          (normalizeFieldName "x".toList) = some "x".toList ∧
        "x".toList ≠ [])) ∧
    ("x".toList ∈
        (validateFieldsAgainstExisting ["x".toList] []).similarMatches.map
          SimilarMatch.jsonField ↔
      ∃ w, mapGet (buildMaps ([] : List ExistingField)).2
          (normalizeFieldName "x".toList) = some w ∧
        w ≠ [] ∧ w ≠ "x".toList) ∧
    ("x".toList ∈ (validateFieldsAgainstExisting ["x".toList] []).newFields ↔
      (mapGet (buildMaps ([] : List ExistingField)).2
          (normalizeFieldName "x".toList) = none ∨
        mapGet (buildMaps ([] : List ExistingField)).2
          (normalizeFieldName "x".toList) = some [])) ∧
    (∀ sm ∈ (validateFieldsAgainstExisting ["x".toList] []).similarMatches,
      sm.jsonField = "x".toList →
        some sm.existingField =
          mapGet (buildMaps ([] : List ExistingField)).2
            (normalizeFieldName "x".toList) ∧
        sm.normalizedName = normalizeFieldName "x".toList)) :=
  validateFields_classification ["x".toList] [] "x".toList (by decide)

/-- C10: every entry of `exactMatches` pairs the incoming name with
itself - its `existingField` component is string-equal to its
`jsonField` component. -/
theorem exactMatches_pair_with_self (jsonFields : List Str)
    (existing : List ExistingField) (e : ExactMatch)
    (he : e ∈ (validateFieldsAgainstExisting jsonFields existing).exactMatches) :
    e.existingField = e.jsonField := by
  unfold validateFieldsAgainstExisting at he
  rw [validateGo_exactMatches, List.mem_map] at he
  obtain ⟨j, -, hmk⟩ := he
  rw [← hmk]

theorem exactMatches_pair_with_self_witness :
    (ExactMatch.mk "a".toList "a".toList).existingField =
      (ExactMatch.mk "a".toList "a".toList).jsonField :=
  exactMatches_pair_with_self ["a".toList] [⟨"a".toList, "a".toList⟩]
    (ExactMatch.mk "a".toList "a".toList) (List.Mem.head _)

end LarkImporter

namespace LarkImporter

lemma natToStr_ne_nil (n : Nat) : natToStr n ≠ [] := by
  unfold natToStr
  split
  · exact List.cons_ne_nil _ _
  · exact fun h => absurd (List.append_eq_nil.mp h).2 (List.cons_ne_nil _ _)

lemma intToStr_ne_nil (n : Int) : intToStr n ≠ [] := by
  unfold intToStr
  split
  · exact List.cons_ne_nil _ _
  · exact natToStr_ne_nil _

lemma transformEntry_none_of_empty (fm : List (Str × Str))
    (urlF numF : List Str) (k : Str) :
    transformEntry fm urlF numF k .vNull = none ∧
    transformEntry fm urlF numF k (.vStr []) = none :=
  ⟨rfl, rfl⟩

lemma transformEntry_ok (fm : List (Str × Str)) (urlF numF : List Str)
    (k : Str) (v : JsValue) (k' : Str) (v' : JsValue)
    (h : transformEntry fm urlF numF k v = some (k', v')) :
    (∃ s, v' = linkValue s) ∨
    (∃ n, v' = .vNum n ∧ setHas numF k' = true) ∨
    (∃ s, v' = .vStr s ∧ s ≠ []) := by
  by_cases hurl : setHas urlF (resolveKey fm k) = true
  · cases v with
    | vNull => simp [transformEntry] at h
    | vBool b => simp [transformEntry, hurl, isValidUrl] at h
    | vNum n => simp [transformEntry, hurl, isValidUrl] at h
    | vArr xs => simp [transformEntry, hurl, isValidUrl] at h
    | vObj kvs => simp [transformEntry, hurl, isValidUrl] at h
    | vStr s =>
      cases s with
      | nil => simp [transformEntry] at h
      | cons a as =>
        by_cases hv : isValidUrl (.vStr (a :: as)) = true
        · have he : transformEntry fm urlF numF k (.vStr (a :: as)) =
              some (resolveKey fm k, linkValue (a :: as)) := by
            simp [transformEntry, hurl, hv]
          rw [he, Option.some_inj] at h
          exact Or.inl ⟨a :: as, (congrArg Prod.snd h).symm⟩
        · simp [transformEntry, hurl, hv] at h
  · by_cases hnum : setHas numF (resolveKey fm k) = true
    · cases v with
      | vNull => simp [transformEntry] at h
      | vBool b => simp [transformEntry, hurl, hnum] at h
      | vArr xs => simp [transformEntry, hurl, hnum] at h
      | vObj kvs => simp [transformEntry, hurl, hnum] at h
      | vNum n =>
        simp only [transformEntry, hurl, hnum, if_true, if_false,
          Bool.false_eq_true, Option.some.injEq, Prod.mk.injEq] at h
        refine Or.inr (Or.inl ⟨n, h.2.symm, ?_⟩)
        rw [← h.1]
        exact hnum
      | vStr s =>
        cases s with
        | nil => simp [transformEntry] at h
        | cons a as =>
          by_cases hn : (jsNumericStr (a :: as) &&
              !(trimJs (a :: as)).isEmpty) = true
          · simp only [transformEntry, hurl, hnum, hn, if_true, if_false,
              Bool.false_eq_true, Option.some.injEq, Prod.mk.injEq] at h
            refine Or.inr (Or.inl ⟨jsToNumber (a :: as), h.2.symm, ?_⟩)
            rw [← h.1]
            exact hnum
          · simp [transformEntry, hurl, hnum, hn] at h
    · cases v with
      | vNull => simp [transformEntry] at h
      | vBool b =>
        cases b <;>
          · simp only [transformEntry, hurl, hnum, if_false,
              Bool.false_eq_true, Option.some.injEq, Prod.mk.injEq] at h
            exact Or.inr (Or.inr ⟨_, h.2.symm, by decide⟩)
      | vNum n =>
        simp only [transformEntry, hurl, hnum, if_false,
          Bool.false_eq_true, Option.some.injEq, Prod.mk.injEq] at h
        exact Or.inr (Or.inr ⟨_, h.2.symm, intToStr_ne_nil n⟩)
      | vArr xs =>
        simp only [transformEntry, hurl, hnum, if_false,
          Bool.false_eq_true, Option.some.injEq, Prod.mk.injEq] at h
        exact Or.inr (Or.inr ⟨_, h.2.symm, by simp [jsonStringify]⟩)
      | vObj kvs =>
        simp only [transformEntry, hurl, hnum, if_false,
          Bool.false_eq_true, Option.some.injEq, Prod.mk.injEq] at h
        exact Or.inr (Or.inr ⟨_, h.2.symm, by simp [jsonStringify]⟩)
      | vStr s =>
        cases s with
        | nil => simp [transformEntry] at h
        | cons a as =>
          simp only [transformEntry, hurl, hnum, if_false,
            Bool.false_eq_true, Option.some.injEq, Prod.mk.injEq] at h
          exact Or.inr (Or.inr ⟨_, h.2.symm, List.cons_ne_nil a as⟩)

lemma objSet_subset (m : List (Str × JsValue)) (k : Str) (v : JsValue) :
    ∀ x ∈ objSet m k v, x = (k, v) ∨ x ∈ m := by
  induction m with
  | nil =>
    intro x hx
    simp [objSet] at hx
    exact Or.inl hx
  | cons p rest ih =>
    obtain ⟨pk, pv⟩ := p
    intro x hx
    by_cases hk : (pk == k) = true
    · rw [show objSet ((pk, pv) :: rest) k v = (k, v) :: rest from by
        simp [objSet, hk]] at hx
      rcases List.mem_cons.mp hx with hx | hx
      · exact Or.inl hx
      · exact Or.inr (List.mem_cons_of_mem (pk, pv) hx)
    · rw [show objSet ((pk, pv) :: rest) k v =
          (pk, pv) :: objSet rest k v from by simp [objSet, hk]] at hx
      rcases List.mem_cons.mp hx with hx | hx
      · exact Or.inr (by rw [hx]; exact List.mem_cons_self (pk, pv) rest)
      · rcases ih x hx with hx' | hx'
        · exact Or.inl hx'
        · exact Or.inr (List.mem_cons_of_mem (pk, pv) hx')

lemma processFold_inv (fm : List (Str × Str)) (urlF numF : List Str)
    (P : Str × JsValue → Prop)
    (hstep : ∀ k₀ v₀ k' v',
      transformEntry fm urlF numF k₀ v₀ = some (k', v') → P (k', v')) :
    ∀ (fields : List (Str × JsValue)) (acc : List (Str × JsValue)),
      (∀ x ∈ acc, P x) →
      ∀ x ∈ fields.foldl
        (fun acc kv =>
          match transformEntry fm urlF numF kv.1 kv.2 with
          | none => acc
          | some (k', v') => objSet acc k' v') acc, P x := by
  intro fields
  induction fields with
  | nil => intro acc hacc x hx; exact hacc x hx
  | cons kv rest ih =>
    intro acc hacc x
    rw [List.foldl_cons]
    cases ht : transformEntry fm urlF numF kv.1 kv.2 with
    | none =>
      intro hx
      exact ih acc hacc x hx
    | some p =>
      intro hx
      refine ih (objSet acc p.1 p.2) ?_ x hx
      intro y hy
      rcases objSet_subset acc p.1 p.2 y hy with hy' | hy'
      · rw [hy']
        exact hstep kv.1 kv.2 p.1 p.2 (by rw [ht])
      · exact hacc y hy'

/-- C9: every value in a field map produced by `processFieldValues` is
the provider's link object, a number under a number-typed target key,
or a non-empty string; no null/undefined/empty-string, raw array, raw
object, or boolean value appears. -/
theorem processFieldValues_value_invariant (fields : List (Str × JsValue))
    (fm : List (Str × Str)) (urlF numF : List Str) (k : Str) (v : JsValue)
    (hmem : (k, v) ∈ processFieldValues fields fm urlF numF) :
    (∃ s, v = linkValue s) ∨
    (∃ n, v = .vNum n ∧ setHas numF k = true) ∨
    (∃ s, v = .vStr s ∧ s ≠ []) := by
  have := processFold_inv fm urlF numF
    (fun x => (∃ s, x.2 = linkValue s) ∨
      (∃ n, x.2 = .vNum n ∧ setHas numF x.1 = true) ∨
      (∃ s, x.2 = .vStr s ∧ s ≠ []))
    (fun k₀ v₀ k' v' h => transformEntry_ok fm urlF numF k₀ v₀ k' v' h)
    fields [] (by intro x hx; simp at hx) (k, v) hmem
  exact this

theorem processFieldValues_value_invariant_witness :
    (∃ s, JsValue.vStr "v".toList = linkValue s) ∨
    (∃ n, JsValue.vStr "v".toList = .vNum n ∧
      setHas [] "a".toList = true) ∨
    (∃ s, JsValue.vStr "v".toList = .vStr s ∧ s ≠ []) :=
  processFieldValues_value_invariant
    [("a".toList, .vStr "v".toList)] [] [] [] "a".toList
    (.vStr "v".toList) (List.Mem.head _)

/-- C7: for a record entry whose resolved target field is URL-typed, the
transformer keeps the entry iff its value is a valid absolute
`http`/`https` URL string, and a kept entry is written under the
resolved key as the provider's link shape with link and display text
both equal to the URL string; concretely, a URL-typed field holding
`"not a url"` is dropped from the output record and one holding
`"https://a.b"` is emitted as the link shape. -/
theorem processFieldValues_url_typed (fm : List (Str × Str))
    (urlF numF : List Str) (k : Str) (v : JsValue)
    (hk : setHas urlF (resolveKey fm k) = true) :
    ((∃ e, transformEntry fm urlF numF k v = some e) ↔ isValidUrl v = true) ∧
    (∀ s, v = .vStr s → isValidUrl v = true →
      transformEntry fm urlF numF k v =
        some (resolveKey fm k, linkValue s)) ∧
    (isValidUrl v = true → ∃ s, v = .vStr s) ∧
    processFieldValues [("site".toList, .vStr "not a url".toList)] []
      ["site".toList] [] = [] ∧
    processFieldValues [("site".toList, .vStr "https://a.b".toList)] []
      ["site".toList] [] =
      [("site".toList, linkValue "https://a.b".toList)] := by
  have hstr : isValidUrl v = true → ∃ s, v = .vStr s := by
    intro hv
    cases v <;> simp [isValidUrl] at hv ⊢
  have hkeep : ∀ s, v = .vStr s → isValidUrl v = true →
      transformEntry fm urlF numF k v =
        some (resolveKey fm k, linkValue s) := by
    intro s hv hvalid
    subst hv
    cases s with
    | nil => simp [isValidUrl, trimJs] at hvalid
    | cons a as => simp [transformEntry, hk, hvalid]
  refine ⟨?_, hkeep, hstr, rfl, rfl⟩
  constructor
  · rintro ⟨e, he⟩
    by_contra hv
    simp only [Bool.not_eq_true] at hv
    cases v with
    | vNull => simp [transformEntry] at he
    | vStr s =>
      cases s with
      | nil => simp [transformEntry] at he
      | cons a as => simp [transformEntry, hk, hv] at he
    | vBool b => simp [transformEntry, hk, hv] at he
    | vNum n => simp [transformEntry, hk, hv] at he
    | vArr xs => simp [transformEntry, hk, hv] at he
    | vObj kvs => simp [transformEntry, hk, hv] at he
  · intro hv
    obtain ⟨s, hs⟩ := hstr hv
    exact ⟨_, hkeep s hs hv⟩

theorem processFieldValues_url_typed_witness :
    setHas ["site".toList] (resolveKey [] "site".toList) = true ∧
    ((∃ e, transformEntry [] ["site".toList] [] "site".toList
        (.vStr "https://a.b".toList) = some e) ↔
      isValidUrl (.vStr "https://a.b".toList) = true) :=
  ⟨by decide,
   (processFieldValues_url_typed [] ["site".toList] [] "site".toList
      (.vStr "https://a.b".toList) (by decide)).1⟩

end LarkImporter

namespace LarkImporter

lemma batchGo_nil (respond : Nat → ChunkResp) (fm : List (Str × Str))
    (urlF numF : List Str) (k s : Nat) :
    batchGo respond fm urlF numF k s [] = ⟨0, 0, [], []⟩ := by
  rw [batchGo]

lemma batchGo_cons (respond : Nat → ChunkResp) (fm : List (Str × Str))
    (urlF numF : List Str) (k s : Nat) (x : List (Str × JsValue))
    (tl : List (List (Str × JsValue))) :
    batchGo respond fm urlF numF k s (x :: tl) =
      combineBatch
        (processChunk (respond k) s ((x :: tl).take BATCH_SIZE).length)
        (batchGo respond fm urlF numF (k + 1)
          (s + ((x :: tl).take BATCH_SIZE).length)
          ((x :: tl).drop BATCH_SIZE)) := by
  rw [batchGo]

lemma processChunk_fail (resp : ChunkResp) (s len : Nat)
    (h : chunkFailB resp = true) :
    processChunk resp s len =
      ⟨0, len, [],
        (List.range len).map (fun j => (s + j, chunkErrMsg resp))⟩ := by
  unfold processChunk
  rw [if_pos h]

lemma processChunk_ok (msg : String) (ids : List String) (s len : Nat) :
    processChunk (.api 0 msg (some ids)) s len = ⟨ids.length, 0, ids, []⟩ :=
  rfl

lemma div_batch_of_lt (k j : Nat) (hj : j < BATCH_SIZE) :
    (BATCH_SIZE * k + j) / BATCH_SIZE = k := by
  have h1 : BATCH_SIZE * k + j = j + BATCH_SIZE * k := by ring
  rw [h1, Nat.add_mul_div_left j k (by decide : 0 < BATCH_SIZE),
    Nat.div_eq_of_lt hj, Nat.zero_add]

lemma batchGo_spec (respond : Nat → ChunkResp) (fm : List (Str × Str))
    (urlF numF : List Str) :
    ∀ (n : Nat) (records : List (List (Str × JsValue))) (k : Nat),
      records.length = n →
      (∀ m, respWellFormed (respond (k + m))
        ((records.drop (BATCH_SIZE * m)).take BATCH_SIZE).length) →
      (batchGo respond fm urlF numF k (BATCH_SIZE * k) records).successCount +
          (batchGo respond fm urlF numF k (BATCH_SIZE * k)
            records).failedCount =
        records.length ∧
      (batchGo respond fm urlF numF k (BATCH_SIZE * k)
          records).recordIds.length =
        (batchGo respond fm urlF numF k (BATCH_SIZE * k)
          records).successCount ∧
      (batchGo respond fm urlF numF k (BATCH_SIZE * k)
          records).errors.length =
        (batchGo respond fm urlF numF k (BATCH_SIZE * k)
          records).failedCount ∧
      (batchGo respond fm urlF numF k (BATCH_SIZE * k) records).errors.map
          Prod.fst =
        ((List.range records.length).map (fun j => BATCH_SIZE * k + j)).filter
          (fun i => chunkFailB (respond (i / BATCH_SIZE))) := by
  intro n
  induction n using Nat.strong_induction_on with
  | _ n ih =>
    intro records k hlen H
    cases records with
    | nil =>
      rw [batchGo_nil]
      simp
    | cons x tl =>
      have hB : 0 < BATCH_SIZE := by decide
      by_cases hcase : (x :: tl).length ≤ BATCH_SIZE
      · -- the last (only remaining) chunk
        have hbfull : (x :: tl).take BATCH_SIZE = x :: tl :=
          List.take_of_length_le hcase
        have htnil : (x :: tl).drop BATCH_SIZE = [] :=
          List.drop_eq_nil_of_le hcase
        have H0 : respWellFormed (respond k) (x :: tl).length := by
          have h0 := H 0
          rw [Nat.mul_zero, List.drop_zero, Nat.add_zero, hbfull] at h0
          exact h0
        have hp : ∀ i ∈ (List.range (x :: tl).length).map
            (fun j => BATCH_SIZE * k + j),
            chunkFailB (respond (i / BATCH_SIZE)) =
              chunkFailB (respond k) := by
          intro i hi
          obtain ⟨j, hj, rfl⟩ := List.mem_map.mp hi
          rw [div_batch_of_lt k j
            (lt_of_lt_of_le (List.mem_range.mp hj) hcase)]
        rw [batchGo_cons, hbfull, htnil, batchGo_nil]
        by_cases hfail : chunkFailB (respond k) = true
        · rw [processChunk_fail (respond k) _ _ hfail]
          refine ⟨by simp [combineBatch], by simp [combineBatch],
            by simp [combineBatch], ?_⟩
          simp only [combineBatch, List.append_nil, List.map_map]
          have hcomp : (Prod.fst ∘ fun j =>
              (BATCH_SIZE * k + j, chunkErrMsg (respond k))) =
              (fun j => BATCH_SIZE * k + j) := rfl
          rw [hcomp]
          symm
          apply List.filter_eq_self.mpr
          intro a ha
          rw [hp a ha]
          exact hfail
        · obtain ⟨msg, ids, hresp, hids⟩ : ∃ msg ids,
              respond k = .api 0 msg (some ids) ∧
                ids.length = (x :: tl).length := by
            rcases H0 with h | h
            · exact absurd h hfail
            · exact h
          rw [hresp, processChunk_ok]
          refine ⟨by simp [combineBatch, hids], by simp [combineBatch], ?_, ?_⟩
          · simp [combineBatch]
          · simp only [combineBatch, List.append_nil, List.map_nil,
              List.nil_append]
            symm
            apply List.filter_eq_nil_iff.mpr
            intro a ha
            rw [hp a ha, hresp]
            simp [chunkFailB]
      · -- a full chunk followed by at least one more record
        push_neg at hcase
        have hblen : ((x :: tl).take BATCH_SIZE).length = BATCH_SIZE := by
          rw [List.length_take]
          exact min_eq_left (le_of_lt hcase)
        have htlen : ((x :: tl).drop BATCH_SIZE).length =
            (x :: tl).length - BATCH_SIZE := List.length_drop _ _
        have H0 : respWellFormed (respond k)
            ((x :: tl).take BATCH_SIZE).length := by
          have h0 := H 0
          rw [Nat.mul_zero, List.drop_zero, Nat.add_zero] at h0
          exact h0
        have H' : ∀ m, respWellFormed (respond (k + 1 + m))
            ((((x :: tl).drop BATCH_SIZE).drop (BATCH_SIZE * m)).take
              BATCH_SIZE).length := by
          intro m
          have hm := H (m + 1)
          rw [List.drop_drop]
          have harith : BATCH_SIZE + BATCH_SIZE * m =
              BATCH_SIZE * (m + 1) := by ring
          have harith2 : k + 1 + m = k + (m + 1) := by ring
          rw [harith, harith2]
          exact hm
        have htlt : ((x :: tl).drop BATCH_SIZE).length < n := by
          rw [htlen]
          omega
        obtain ⟨c1, c2, c3, c4⟩ := ih ((x :: tl).drop BATCH_SIZE).length htlt
          ((x :: tl).drop BATCH_SIZE) (k + 1) rfl H'
        have hoff : BATCH_SIZE * k + ((x :: tl).take BATCH_SIZE).length =
            BATCH_SIZE * (k + 1) := by
          rw [hblen]
          ring
        have hsum : (x :: tl).length =
            ((x :: tl).take BATCH_SIZE).length +
              ((x :: tl).drop BATCH_SIZE).length := by
          rw [hblen, htlen]
          omega
        have hp1 : ∀ i ∈ (List.range ((x :: tl).take BATCH_SIZE).length).map
            (fun j => BATCH_SIZE * k + j),
            chunkFailB (respond (i / BATCH_SIZE)) =
              chunkFailB (respond k) := by
          intro i hi
          obtain ⟨j, hj, rfl⟩ := List.mem_map.mp hi
          rw [div_batch_of_lt k j (by
            have := List.mem_range.mp hj
            omega)]
        have hfun : ((fun j => BATCH_SIZE * k + j) ∘
            (fun j => ((x :: tl).take BATCH_SIZE).length + j)) =
            (fun j => BATCH_SIZE * (k + 1) + j) := by
          funext j
          simp only [Function.comp]
          rw [hblen]
          ring
        have hrange :
            ((List.range (x :: tl).length).map
              (fun j => BATCH_SIZE * k + j)).filter
                (fun i => chunkFailB (respond (i / BATCH_SIZE))) =
            (((List.range ((x :: tl).take BATCH_SIZE).length).map
                (fun j => BATCH_SIZE * k + j)).filter
                  (fun i => chunkFailB (respond (i / BATCH_SIZE)))) ++
            (((List.range ((x :: tl).drop BATCH_SIZE).length).map
                (fun j => BATCH_SIZE * (k + 1) + j)).filter
                  (fun i => chunkFailB (respond (i / BATCH_SIZE)))) := by
          conv_lhs => rw [hsum]
          rw [List.range_add, List.map_append, List.filter_append,
            List.map_map, hfun]
        rw [batchGo_cons, hoff]
        by_cases hfail : chunkFailB (respond k) = true
        · rw [processChunk_fail (respond k) _ _ hfail]
          refine ⟨?_, ?_, ?_, ?_⟩
          · simp only [combineBatch]
            omega
          · simp only [combineBatch, List.nil_append]
            omega
          · simp only [combineBatch, List.length_append, List.length_map,
              List.length_range]
            omega
          · simp only [combineBatch, List.map_append, List.map_map]
            rw [hrange, c4]
            congr 1
            have hcomp : (Prod.fst ∘ fun j =>
                (BATCH_SIZE * k + j, chunkErrMsg (respond k))) =
                (fun j => BATCH_SIZE * k + j) := rfl
            rw [hcomp]
            symm
            apply List.filter_eq_self.mpr
            intro a ha
            rw [hp1 a ha]
            exact hfail
        · obtain ⟨msg, ids, hresp, hids⟩ : ∃ msg ids,
              respond k = .api 0 msg (some ids) ∧
                ids.length = ((x :: tl).take BATCH_SIZE).length := by
            rcases H0 with h | h
            · exact absurd h hfail
            · exact h
          rw [hresp, processChunk_ok]
          refine ⟨?_, ?_, ?_, ?_⟩
          · simp only [combineBatch]
            omega
          · simp only [combineBatch, List.length_append]
            omega
          · simp only [combineBatch, List.length_append, List.length_nil]
            omega
          · simp only [combineBatch, List.nil_append]
            rw [hrange, c4]
            have : ((List.range ((x :: tl).take BATCH_SIZE).length).map
                (fun j => BATCH_SIZE * k + j)).filter
                  (fun i => chunkFailB (respond (i / BATCH_SIZE))) = [] := by
              apply List.filter_eq_nil_iff.mpr
              intro a ha
              rw [hp1 a ha, hresp]
              simp [chunkFailB]
            rw [this, List.nil_append]

/-- C1: for every record list and every per-chunk success/failure
pattern of the bulk-create call (success responses carrying one id per
submitted record, per the provider's interface), the aggregated
`BatchCreateResult` conserves records: `successCount + failedCount`
equals the number submitted, the success ids number exactly
`successCount`, the errors number exactly `failedCount`, and the error
indices are exactly the indices whose chunk failed, each exactly
once. -/
theorem batchCreateRecords_conservation (respond : Nat → ChunkResp)
    (records : List (List (Str × JsValue))) (fm : List (Str × Str))
    (urlF numF : List Str)
    (H : ∀ kk, respWellFormed (respond kk) (chunkAt records kk).length) :
    (batchCreateRecords respond records fm urlF numF).successCount +
        (batchCreateRecords respond records fm urlF numF).failedCount =
      records.length ∧
    (batchCreateRecords respond records fm urlF numF).recordIds.length =
      (batchCreateRecords respond records fm urlF numF).successCount ∧
    (batchCreateRecords respond records fm urlF numF).errors.length =
      (batchCreateRecords respond records fm urlF numF).failedCount ∧
    (batchCreateRecords respond records fm urlF numF).errors.map Prod.fst =
      (List.range records.length).filter
        (fun i => chunkFailB (respond (i / BATCH_SIZE))) := by
  have hmain := batchGo_spec respond fm urlF numF records.length records 0 rfl
    (by
      intro m
      have := H m
      rw [Nat.zero_add]
      exact this)
  have hfun : (fun j => BATCH_SIZE * 0 + j) = (id : Nat → Nat) := by
    funext j
    simp
  rw [hfun, List.map_id] at hmain
  exact hmain

theorem batchCreateRecords_conservation_witness :
    (batchCreateRecords
        (fun kk => if kk = 0 then ChunkResp.api 0 "ok" (some ["r1", "r2"])
          else ChunkResp.api 0 "ok" (some []))
        [[("a".toList, JsValue.vStr "p".toList)],
         [("a".toList, JsValue.vStr "q".toList)]] [] [] []).successCount +
      (batchCreateRecords
        (fun kk => if kk = 0 then ChunkResp.api 0 "ok" (some ["r1", "r2"])
          else ChunkResp.api 0 "ok" (some []))
        [[("a".toList, JsValue.vStr "p".toList)],
         [("a".toList, JsValue.vStr "q".toList)]] [] [] []).failedCount =
      ([[("a".toList, JsValue.vStr "p".toList)],
        [("a".toList, JsValue.vStr "q".toList)]] :
          List (List (Str × JsValue))).length ∧
    (batchCreateRecords
        (fun kk => if kk = 0 then ChunkResp.api 0 "ok" (some ["r1", "r2"])
          else ChunkResp.api 0 "ok" (some []))
        [[("a".toList, JsValue.vStr "p".toList)],
         [("a".toList, JsValue.vStr "q".toList)]] [] [] []).recordIds.length =
      (batchCreateRecords
        (fun kk => if kk = 0 then ChunkResp.api 0 "ok" (some ["r1", "r2"])
          else ChunkResp.api 0 "ok" (some []))
        [[("a".toList, JsValue.vStr "p".toList)],
         [("a".toList, JsValue.vStr "q".toList)]] [] [] []).successCount ∧
    (batchCreateRecords
        (fun kk => if kk = 0 then ChunkResp.api 0 "ok" (some ["r1", "r2"])
          else ChunkResp.api 0 "ok" (some []))
        [[("a".toList, JsValue.vStr "p".toList)],
         [("a".toList, JsValue.vStr "q".toList)]] [] [] []).errors.length =
      (batchCreateRecords
        (fun kk => if kk = 0 then ChunkResp.api 0 "ok" (some ["r1", "r2"])
          else ChunkResp.api 0 "ok" (some []))
        [[("a".toList, JsValue.vStr "p".toList)],
         [("a".toList, JsValue.vStr "q".toList)]] [] [] []).failedCount ∧
    (batchCreateRecords
        (fun kk => if kk = 0 then ChunkResp.api 0 "ok" (some ["r1", "r2"])
          else ChunkResp.api 0 "ok" (some []))
        [[("a".toList, JsValue.vStr "p".toList)],
         [("a".toList, JsValue.vStr "q".toList)]] [] [] []).errors.map
        Prod.fst =
      (List.range
        ([[("a".toList, JsValue.vStr "p".toList)],
          [("a".toList, JsValue.vStr "q".toList)]] :
            List (List (Str × JsValue))).length).filter
        (fun i =>
          chunkFailB
            ((fun kk => if kk = 0 then
                ChunkResp.api 0 "ok" (some ["r1", "r2"])
              else ChunkResp.api 0 "ok" (some [])) (i / BATCH_SIZE))) :=
  batchCreateRecords_conservation
    (fun kk => if kk = 0 then ChunkResp.api 0 "ok" (some ["r1", "r2"])
      else ChunkResp.api 0 "ok" (some []))
    [[("a".toList, JsValue.vStr "p".toList)],
     [("a".toList, JsValue.vStr "q".toList)]] [] [] []
    (by
      intro kk
      cases kk with
      | zero => exact Or.inr ⟨"ok", ["r1", "r2"], rfl, by decide⟩
      | succ m =>
        refine Or.inr ⟨"ok", [], by simp, ?_⟩
        have hdrop : (([[("a".toList, JsValue.vStr "p".toList)],
            [("a".toList, JsValue.vStr "q".toList)]] :
              List (List (Str × JsValue))).drop
            (BATCH_SIZE * (m + 1))) = [] := by
          apply List.drop_eq_nil_of_le
          have hlen2 : ([[("a".toList, JsValue.vStr "p".toList)],
              [("a".toList, JsValue.vStr "q".toList)]] :
                List (List (Str × JsValue))).length = 2 := rfl
          rw [hlen2]
          have hB : BATCH_SIZE = 500 := rfl
          rw [hB]
          omega
        rw [chunkAt, hdrop]
        rfl)

end LarkImporter

namespace LarkImporter

lemma syncLoop_spec (outcome : Nat → Except String Unit) (msg : String) :
    ∀ (jr : Nat) (fs : List Str) (idx : Nat) (created : List Str),
      jr < fs.length →
      outcome (idx + jr) = .error msg →
      (∀ i, i < jr → outcome (idx + i) = .ok ()) →
      syncLoop outcome idx created fs = (created ++ fs.take jr, some msg) := by
  intro jr
  induction jr with
  | zero =>
    intro fs idx created hlt hfail hok
    cases fs with
    | nil => simp at hlt
    | cons f rest =>
      rw [Nat.add_zero] at hfail
      rw [syncLoop, hfail]
      simp
  | succ jr ih =>
    intro fs idx created hlt hfail hok
    cases fs with
    | nil => simp at hlt
    | cons f rest =>
      have h0 : outcome idx = .ok () := by
        have := hok 0 (Nat.succ_pos jr)
        rwa [Nat.add_zero] at this
      rw [syncLoop, h0]
      have hres := ih rest (idx + 1) (created ++ [f])
        (by simpa using Nat.lt_of_succ_lt_succ hlt)
        (by rw [show idx + 1 + jr = idx + (jr + 1) from by ring]; exact hfail)
        (by
          intro i hi
          rw [show idx + 1 + i = idx + (i + 1) from by ring]
          exact hok (i + 1) (Nat.succ_lt_succ hi))
      rw [hres]
      simp

/-- C8: if any single remote field-creation call fails during schema
synchronization - here, the first failure occurring at position `j` of
the missing-field list - the run fails as a whole: the creation error
becomes the run's response, the batch-write phase is never reached, and
the fields created before the failure remain created (no rollback). -/
theorem runImport_schema_failure (records : List (List Str))
    (existingFieldNames : List Str) (outcome : Nat → Except String Unit)
    (j : Nat) (msg : String)
    (hj : j < (missingFields records
      (existingFieldNames.map normalizeFieldName)).length)
    (hfail : outcome j = .error msg)
    (hok : ∀ i, i < j → outcome i = .ok ()) :
    (runImport records existingFieldNames outcome).response = .error msg ∧
    (runImport records existingFieldNames outcome).createdFields =
      (missingFields records
        (existingFieldNames.map normalizeFieldName)).take j ∧
    (runImport records existingFieldNames outcome).batchPhaseReached =
      false := by
  have hloop := syncLoop_spec outcome msg j
    (missingFields records (existingFieldNames.map normalizeFieldName)) 0 []
    hj (by rwa [Nat.zero_add]) (by
      intro i hi
      rw [Nat.zero_add]
      exact hok i hi)
  have hrun : runImport records existingFieldNames outcome =
      ⟨.error msg,
        (missingFields records
          (existingFieldNames.map normalizeFieldName)).take j, false⟩ := by
    unfold runImport
    dsimp only
    rw [hloop]
    simp
  rw [hrun]
  exact ⟨rfl, rfl, rfl⟩

theorem runImport_schema_failure_witness :
    (runImport [["x".toList]] []
        (fun _ => Except.error "createFail")).response =
      .error "createFail" ∧
    (runImport [["x".toList]] []
        (fun _ => Except.error "createFail")).createdFields =
      (missingFields [["x".toList]]
        (([] : List Str).map normalizeFieldName)).take 0 ∧
    (runImport [["x".toList]] []
        (fun _ => Except.error "createFail")).batchPhaseReached = false :=
  runImport_schema_failure [["x".toList]] []
    (fun _ => Except.error "createFail") 0 "createFail"
    (by decide) rfl (by intro i hi; omega)

end LarkImporter

namespace LarkImporter

theorem sanitizeJsonText_spec_witness :
    (sanitizeJsonText softHyphenText).count '­' =
      softHyphenText.count '­' :=
  (sanitizeJsonText_spec softHyphenText).2.2.2

end LarkImporter
